import Mathlib

/-!
Shallow embedding of `pkg/lint/runner.go` of golangci-lint and proofs about it.

Channels are modelled as the lists of values that pass through them, goroutine
pipelines as sequential list transformations in dataflow order, and log calls
as an explicit event trace.  `time.Time` values are modelled as `Nat` instants
(`After` is `<` reversed, `Equal` is `=`, `Sub` is truncated subtraction).
-/

namespace Runner

/-- The record `result.Issue`: the fields the runner touches (`FromLinter`) plus a payload
standing for the rest of the record. -/
structure Issue where
  fromLinter : String
  text : String
deriving DecidableEq, Repr

/-- The record `linter.Config` as the runner sees it: `lc.Linter.Name()` and `lc.GetSpeed()`. -/
structure LinterConfig where
  name : String
  speed : Nat
deriving DecidableEq, Repr

/-- The observable outcome of one call to `lc.Linter.Run(ctx, lintCtx)`:
it returns issues, returns an error, or panics. -/
inductive LinterOutcome where
  | succeeds (issues : List Issue)
  | fails (errMsg : String)
  | panics (panicData : String)
deriving DecidableEq, Repr

/-- One entry of the runner's log / channel-send trace. -/
inductive Event where
  | warnPanicStack
  | warnCantRunLinter (linterName errMsg : String)
  | warnProcessorFailed (procName errMsg : String)
  | recordForwarded (linterName : String)
  | finishCalled (procName : String)
  | errorDeadlineExceeded (finished total : Nat)
deriving DecidableEq, Repr

/-- The record `lintRes`: the record each worker publishes on `lintResultsCh`. -/
structure LintRes where
  linter : LinterConfig
  err : Option String
  issues : List Issue
deriving DecidableEq, Repr

/-- Embeds `runLinterSafe`: runs one linter under a `recover` boundary.

On a panic the deferred handler sets the named return
`err = fmt.Errorf("panic occurred: %s", panicData)` and logs the stack at
warning level; the named return `ret` still holds its zero value (nil).
On an analyzer error the function returns `(nil, err)`.

On success the Go code runs `for _, i := range issues { i.FromLinter = ... }`;
`range` binds `i` to a by-value copy of each element, so the field write lands
on the copy and the slice handed back is element-wise unmodified.  The
discarded copies are kept here as a dead `let` to mirror that loop. -/
def runLinterSafe (lc : LinterConfig) (outcome : LinterOutcome) :
    (List Issue × Option String) × List Event :=
  match outcome with
  | .panics panicData =>
      (([], some ("panic occurred: " ++ panicData)), [Event.warnPanicStack])
  | .fails errMsg => (([], some errMsg), [])
  | .succeeds issues =>
      let _discardedCopies := issues.map (fun i => { i with fromLinter := lc.name })
      ((issues, none), [])

/-- One worker's `runWorker` loop over the tasks it dequeues, without the
scheduling nondeterminism: for each task it calls `runLinterSafe` and publishes
a `lintRes` built from the pair it returned. -/
def runWorker (tasks : List (LinterConfig × LinterOutcome)) :
    List LintRes × List Event :=
  match tasks with
  | [] => ([], [])
  | (lc, outcome) :: rest =>
      ({ linter := lc,
         err := (runLinterSafe lc outcome).1.2,
         issues := (runLinterSafe lc outcome).1.1 } :: (runWorker rest).1,
       (runLinterSafe lc outcome).2 ++ (runWorker rest).2)

/-- The interface `processors.Processor`: `Name()` and `Process(issues) ([]result.Issue, error)`.
A Go call can return an error, a nil slice, or a proper slice; the three cases
are `Except.error e`, `.ok none` and `.ok (some issues)`. -/
structure Processor where
  name : String
  process : List Issue → Except String (Option (List Issue))

/-- One iteration of the loop body of `processIssues` for processor `p`:
`newIssues, err := p.Process(issues)`; on error log a warning and keep
`issues`; otherwise `issues = newIssues`; finally `if issues == nil`
(the `.ok none` case) replace it by the empty slice. -/
def processStep (p : Processor) (issues : List Issue) :
    List Issue × List Event :=
  match p.process issues with
  | .error e => (issues, [Event.warnProcessorFailed p.name e])
  | .ok none => ([], [])
  | .ok (some newIssues) => (newIssues, [])

/-- Embeds `processIssues`: fold the current finding set through the processor chain
`r.Processors`, one `processStep` per processor, in chain order. -/
def processIssues (ps : List Processor) (issues : List Issue) :
    List Issue × List Event :=
  match ps with
  | [] => (issues, [])
  | p :: rest =>
      ((processIssues rest (processStep p issues).1).1,
       (processStep p issues).2 ++ (processIssues rest (processStep p issues).1).2)

/-- The loop of `processLintResults` over the raw-result channel `inCh`:
a result carrying an error is logged (`Can't run linter …`) and dropped; a
result with zero issues falls through both branches and is dropped silently;
otherwise its issues are run through `processIssues` and the updated record is
sent on `outCh` (traced as `recordForwarded`). -/
def processLintResultsLoop (ps : List Processor) (results : List LintRes) :
    List LintRes × List Event :=
  match results with
  | [] => ([], [])
  | res :: rest =>
      match res.err with
      | some e =>
          ((processLintResultsLoop ps rest).1,
           Event.warnCantRunLinter res.linter.name e ::
             (processLintResultsLoop ps rest).2)
      | none =>
          if res.issues.length ≠ 0 then
            ({ res with issues := (processIssues ps res.issues).1 } ::
               (processLintResultsLoop ps rest).1,
             (processIssues ps res.issues).2 ++
               Event.recordForwarded res.linter.name ::
                 (processLintResultsLoop ps rest).2)
          else
            processLintResultsLoop ps rest

/-- Embeds `processLintResults`: consume the raw-result channel, then — after the
channel is exhausted — call `p.Finish()` on every processor, in chain order. -/
def processLintResults (ps : List Processor) (results : List LintRes) :
    List LintRes × List Event :=
  ((processLintResultsLoop ps results).1,
   (processLintResultsLoop ps results).2 ++
     ps.map (fun p => Event.finishCalled p.name))

/-- Embeds `collectIssues`: flatten the processed-result channel into the issue
channel, skipping records whose issue list is empty. -/
def collectIssues (results : List LintRes) : List Issue :=
  match results with
  | [] => []
  | res :: rest =>
      if res.issues.length = 0 then collectIssues rest
      else res.issues ++ collectIssues rest

/-- Embeds `getSortedLintersConfigs`: copy the configs and sort the copy ascending by
`GetSpeed()`.  `sort.Slice` with comparator `GetSpeed() < GetSpeed()` is
modelled by `List.insertionSort` under `speed ≤ speed`: the runner relies only
on the result being a permutation ordered by the comparator, which either
algorithm produces. -/
def getSortedLintersConfigs (linters : List LinterConfig) : List LinterConfig :=
  List.insertionSort (fun a b => a.speed ≤ b.speed) linters

/-- The order in which `runWorkers` pushes tasks into `tasksCh`: the loop
`for _, lc := range lcs { tasksCh <- lc }` enqueues exactly the sorted copy,
front to back. -/
def enqueuedTasks (linters : List LinterConfig) : List LinterConfig :=
  getSortedLintersConfigs linters

/-- Embeds `logWorkersStat`: reads `workersFinishTimes[0]` unconditionally — with an
empty slice (concurrency 0) that read is out of bounds and panics, modelled as
`none`.  Otherwise it folds the slice to the latest finish time and reports,
per worker index `i` (1-based in the log), the idle time
`lastFinishTime - t` for every worker whose finish time differs from
`lastFinishTime`; every worker whose time equals it is skipped. -/
def logWorkersStat (workersFinishTimes : List Nat) :
    Option (List (Nat × Nat)) :=
  match workersFinishTimes with
  | [] => none
  | t0 :: _ =>
      let lastFinishTime :=
        workersFinishTimes.foldl (fun last t => if last < t then t else last) t0
      some (workersFinishTimes.enum.filterMap (fun p =>
        if p.2 = lastFinishTime then none
        else some (p.1 + 1, lastFinishTime - p.2)))

/-- Models how, in `runWorkers`, `workersFinishTimes := make([]time.Time, Concurrency)`:
a slice of length exactly the configured concurrency. -/
def workersFinishTimesLen (concurrency : Nat) (times : List Nat) : Prop :=
  times.length = concurrency

/-- Embeds `Run`: wires workers → `processLintResults` → `collectIssues`.
`ctxErr` is the outcome of the `ctx.Err() != nil` check.  When it is true the
`for range processedLintResultsCh` loop consumes the whole processed-result
channel while counting, the `N/M linters finished: deadline exceeded` message
is logged at error level, and `collectIssues` then reads the same
already-drained channel, so it sees no records. -/
def Run (ctxErr : Bool) (ps : List Processor) (linters : List LinterConfig)
    (rawResults : List LintRes) : List Issue × List Event :=
  if ctxErr then
    (collectIssues [],
      (processLintResults ps rawResults).2 ++
        [Event.errorDeadlineExceeded (processLintResults ps rawResults).1.length
          linters.length])
  else
    (collectIssues (processLintResults ps rawResults).1,
      (processLintResults ps rawResults).2)

/-! ### Slice-aliasing model of `getSortedLintersConfigs`

To state the frame property (the caller's slice is not mutated) the slice
operations are replayed against an explicit heap of backing arrays: a slice
value is an index into the heap, `make` allocates a fresh array, and
`sort.Slice` writes in place through the given slice. -/

/-- The heap of slice backing arrays, addressed by allocation index. -/
abbrev SliceHeap := List (List LinterConfig)

/-- Read the array a slice refers to. -/
def heapRead (h : SliceHeap) (ref : Nat) : List LinterConfig :=
  h.getD ref []

/-- Write through a slice into its backing array. -/
def heapWrite (h : SliceHeap) (ref : Nat) (v : List LinterConfig) : SliceHeap :=
  h.set ref v

/-- Models `make([]linter.Config, len)` followed by `copy`: allocate a fresh backing
array holding the given elements and return its reference. -/
def heapAlloc (h : SliceHeap) (v : List LinterConfig) : SliceHeap × Nat :=
  (h ++ [v], h.length)

/-- Models `sort.Slice(s, less)`: reorders the backing array of `s` in place. -/
def sortSliceInPlace (h : SliceHeap) (ref : Nat) : SliceHeap :=
  heapWrite h ref
    (List.insertionSort (fun a b => a.speed ≤ b.speed) (heapRead h ref))

/-- Replays `getSortedLintersConfigs` against the heap: `ret := make(..., len(linters));
copy(ret, linters); sort.Slice(ret, …); return ret`. -/
def getSortedLintersConfigsH (h : SliceHeap) (linters : Nat) :
    SliceHeap × Nat :=
  let (h1, ret) := heapAlloc h (heapRead h linters)
  (sortSliceInPlace h1 ret, ret)

/-- Recognizes the `Can't run linter …` warning emitted for an errored result. -/
def isCantRunWarning : Event → Bool
  | .warnCantRunLinter _ _ => true
  | _ => false

/-- Recognizes a `p.Finish()` call in the trace. -/
def isFinishEvent : Event → Bool
  | .finishCalled _ => true
  | _ => false

/-! ### Concrete fixtures used by counterexamples and witnesses -/

/-- A sample linter config. -/
def lcGovet : LinterConfig := { name := "govet", speed := 1 }

/-- A sample issue as an analyzer reports it: the `FromLinter` tag unset. -/
def issueA : Issue := { fromLinter := "", text := "a" }

/-- A successful raw result carrying one issue. -/
def resOk : LintRes := { linter := lcGovet, err := none, issues := [issueA] }

/-- A raw result carrying an analyzer error. -/
def resErr : LintRes := { linter := lcGovet, err := some "boom", issues := [] }

/-- A processor that filters every finding out (as the capping processors can). -/
def procDropAll : Processor :=
  { name := "max_from_linter", process := fun _ => .ok (some []) }

/-- A processor that always fails. -/
def procFails : Processor :=
  { name := "nolint", process := fun _ => .error "bad directive" }

/-- A processor that returns a nil slice. -/
def procNil : Processor :=
  { name := "diff", process := fun _ => .ok none }

/-- A processor that passes findings through unchanged. -/
def procId : Processor :=
  { name := "path_prettifier", process := fun issues => .ok (some issues) }

/-! ## Helper lemmas -/

theorem runWorker_append (l1 l2 : List (LinterConfig × LinterOutcome)) :
    (runWorker (l1 ++ l2)).1 = (runWorker l1).1 ++ (runWorker l2).1 := by
  induction l1 with
  | nil => simp [runWorker]
  | cons t rest ih =>
      obtain ⟨lc, outcome⟩ := t
      simp [runWorker, ih]

theorem processIssues_append (l1 l2 : List Processor) (issues : List Issue) :
    (processIssues (l1 ++ l2) issues).1 =
      (processIssues l2 (processIssues l1 issues).1).1 := by
  induction l1 generalizing issues with
  | nil => simp [processIssues]
  | cons p rest ih => simp [processIssues, ih]

/-! ## Claims -/

/-- Claim C1: the spec says every finding returned by a successful `runLinterSafe`
run is stamped with the analyzer's name.  The code ranges over the issues by
value, so the write `i.FromLinter = lc.Linter.Name()` mutates a copy and the
returned findings keep their original (empty) tag: on the concrete input the
issue comes back with `fromLinter` still untouched. -/
theorem runLinterSafe_stamp_lost :
    (runLinterSafe lcGovet (.succeeds [issueA])).1 = ([issueA], none) ∧
    ∀ i ∈ ((runLinterSafe lcGovet (.succeeds [issueA])).1).1,
      i.fromLinter ≠ lcGovet.name := by
  decide

/-- Claim C6: a panic inside the analyzer is intercepted by `runLinterSafe` and
turned into the error result `panic occurred: <description>` with the stack
trace logged at warning level, and the surrounding worker keeps running: every
task before and after the panicking one still yields its own result. -/
theorem runLinterSafe_panic_isolated (lc : LinterConfig) (panicData : String)
    (tasksBefore tasksAfter : List (LinterConfig × LinterOutcome)) :
    runLinterSafe lc (.panics panicData) =
      (([], some ("panic occurred: " ++ panicData)), [Event.warnPanicStack]) ∧
    (runWorker (tasksBefore ++ (lc, .panics panicData) :: tasksAfter)).1 =
      (runWorker tasksBefore).1 ++
        { linter := lc, err := some ("panic occurred: " ++ panicData),
          issues := [] } :: (runWorker tasksAfter).1 := by
  refine ⟨rfl, ?_⟩
  rw [runWorker_append]
  simp [runWorker, runLinterSafe]

/-- Claim C7: the dispatch sequence pushed into the task channel is a permutation of
the configured linters, ordered ascending by declared speed. -/
theorem enqueuedTasks_sorted_perm (linters : List LinterConfig) :
    (enqueuedTasks linters).Perm linters ∧
    List.Sorted (fun a b => a.speed ≤ b.speed) (enqueuedTasks linters) := by
  constructor
  · exact List.perm_insertionSort _ _
  · haveI : IsTotal LinterConfig (fun a b => a.speed ≤ b.speed) :=
      ⟨fun a b => Nat.le_total a.speed b.speed⟩
    haveI : IsTrans LinterConfig (fun a b => a.speed ≤ b.speed) :=
      ⟨fun _ _ _ hab hbc => Nat.le_trans hab hbc⟩
    exact List.sorted_insertionSort _ _

/-- Claim C4: at any position of the processor chain, a failing `Process` call
leaves the finding set exactly as the preceding processors produced it and the
rest of the chain still runs on that set, while a nil return is normalized to
the empty finding set before the rest of the chain runs. -/
theorem processIssues_mid_chain (psBefore psAfter : List Processor)
    (p : Processor) (issues0 : List Issue) :
    (processIssues (psBefore ++ p :: psAfter) issues0).1 =
      (processIssues psAfter
        (match p.process (processIssues psBefore issues0).1 with
         | .error _ => (processIssues psBefore issues0).1
         | .ok none => []
         | .ok (some newIssues) => newIssues)).1 := by
  rw [processIssues_append]
  cases hp : p.process (processIssues psBefore issues0).1 with
  | error e => simp [processIssues, processStep, hp]
  | ok o => cases o <;> simp [processIssues, processStep, hp]

theorem processIssues_no_finish (ps : List Processor) (issues : List Issue) :
    (processIssues ps issues).2.filter isFinishEvent = [] := by
  induction ps generalizing issues with
  | nil => simp [processIssues]
  | cons p rest ih =>
      cases hp : p.process issues with
      | error e =>
          simp [processIssues, processStep, hp, List.filter_append,
            isFinishEvent, ih]
      | ok o => cases o <;>
          simp [processIssues, processStep, hp, List.filter_append, ih]

theorem processLintResultsLoop_no_finish (ps : List Processor)
    (results : List LintRes) :
    (processLintResultsLoop ps results).2.filter isFinishEvent = [] := by
  induction results with
  | nil => simp [processLintResultsLoop]
  | cons res rest ih =>
      cases hres : res.err with
      | some e => simp [processLintResultsLoop, hres, isFinishEvent, ih]
      | none =>
          by_cases hlen : res.issues.length ≠ 0 <;>
            simp [processLintResultsLoop, hres, hlen, List.filter_append,
              isFinishEvent, processIssues_no_finish, ih]

/-- Claim C5: once the raw-result stream is exhausted, `Finish` is called on every
processor of the chain exactly once, in chain order, after all record-level
events — for any number of processed records, including zero. -/
theorem processors_finished_once_in_order (ps : List Processor)
    (results : List LintRes) :
    ∃ recordLog,
      (processLintResults ps results).2 =
        recordLog ++ ps.map (fun p => Event.finishCalled p.name) ∧
      recordLog.filter isFinishEvent = [] :=
  ⟨(processLintResultsLoop ps results).2, rfl,
    processLintResultsLoop_no_finish ps results⟩

theorem processIssues_no_cantRun (ps : List Processor) (issues : List Issue) :
    (processIssues ps issues).2.filter isCantRunWarning = [] := by
  induction ps generalizing issues with
  | nil => simp [processIssues]
  | cons p rest ih =>
      cases hp : p.process issues with
      | error e =>
          simp [processIssues, processStep, hp, List.filter_append,
            isCantRunWarning, ih]
      | ok o => cases o <;>
          simp [processIssues, processStep, hp, List.filter_append, ih]

theorem processLintResultsLoop_fst (ps : List Processor)
    (results : List LintRes) :
    (processLintResultsLoop ps results).1 =
      (results.filter (fun r => r.err.isNone && r.issues.length != 0)).map
        (fun r => { r with issues := (processIssues ps r.issues).1 }) := by
  induction results with
  | nil => simp [processLintResultsLoop]
  | cons res rest ih =>
      cases hres : res.err with
      | some e => simp [processLintResultsLoop, hres, ih]
      | none =>
          by_cases hlen : res.issues.length ≠ 0 <;>
            simp [processLintResultsLoop, hres, hlen, ih]

theorem processLintResultsLoop_warnings (ps : List Processor)
    (results : List LintRes) :
    (processLintResultsLoop ps results).2.filter isCantRunWarning =
      results.filterMap (fun r =>
        r.err.map (fun e => Event.warnCantRunLinter r.linter.name e)) := by
  induction results with
  | nil => simp [processLintResultsLoop]
  | cons res rest ih =>
      cases hres : res.err with
      | some e => simp [processLintResultsLoop, hres, isCantRunWarning, ih]
      | none =>
          by_cases hlen : res.issues.length ≠ 0 <;>
            simp [processLintResultsLoop, hres, hlen, List.filter_append,
              isCantRunWarning, processIssues_no_cantRun, ih]

/-- Claim C3, counterexample: a successful raw result with one finding is fed to a
chain whose processors filter everything out; the record is still forwarded on
the processed-result channel, carrying an empty finding set — the claim that
no empty processed record is ever forwarded is false. -/
theorem processLintResults_forwards_empty_record :
    (processLintResults [procDropAll] [resOk]).1 =
      [{ linter := lcGovet, err := none, issues := [] }] ∧
    ¬ (∀ r ∈ (processLintResults [procDropAll] [resOk]).1,
        r.issues ≠ []) := by
  decide

/-- Claim C3 as amended: a raw result carrying an error is dropped and logged, one
carrying zero findings is dropped silently, and every other record is
forwarded with the processor chain's output — even when that output is the
empty finding set. -/
theorem processLintResults_drop_and_forward (ps : List Processor)
    (results : List LintRes) :
    (processLintResults ps results).1 =
      (results.filter (fun r => r.err.isNone && r.issues.length != 0)).map
        (fun r => { r with issues := (processIssues ps r.issues).1 }) ∧
    (processLintResults ps results).2.filter isCantRunWarning =
      results.filterMap (fun r =>
        r.err.map (fun e => Event.warnCantRunLinter r.linter.name e)) := by
  constructor
  · exact processLintResultsLoop_fst ps results
  · show ((processLintResultsLoop ps results).2 ++
        ps.map (fun p => Event.finishCalled p.name)).filter isCantRunWarning = _
    rw [List.filter_append, processLintResultsLoop_warnings]
    have hfin : (ps.map (fun p => Event.finishCalled p.name)).filter
        isCantRunWarning = [] := by
      induction ps with
      | nil => simp
      | cons p rest ih => simp [isCantRunWarning, ih]
    simp [hfin]

/-- Claim C2, counterexample: with the deadline already fired, a successfully
completed and processed record (here `resOk`, whose finding survives the chain
unchanged) is counted by the drain, but its finding does not appear in the
stream `Run` returns — the returned stream is empty. -/
theorem run_deadline_output_empty :
    (processLintResults [procId] [resOk]).1 = [resOk] ∧
    (Run true [procId] [lcGovet] [resOk]).1 = [] ∧
    issueA ∉ (Run true [procId] [lcGovet] [resOk]).1 := by
  decide

/-- Claim C2 as amended: when the cancellation check fires, `Run` drains the
processed-result stream counting the records, logs the
`<finished>/<total> linters finished: deadline exceeded` message at error
severity after all processing events, and returns an empty finding stream —
the drained findings are not re-emitted. -/
theorem run_deadline_drains_and_reports (ps : List Processor)
    (linters : List LinterConfig) (rawResults : List LintRes) :
    (Run true ps linters rawResults).1 = [] ∧
    (Run true ps linters rawResults).2 =
      (processLintResults ps rawResults).2 ++
        [Event.errorDeadlineExceeded
          (processLintResults ps rawResults).1.length linters.length] := by
  constructor <;> simp [Run, collectIssues]

theorem foldl_last_mem (l : List Nat) (a : Nat) :
    l.foldl (fun last t => if last < t then t else last) a ∈ a :: l := by
  induction l generalizing a with
  | nil => simp
  | cons t rest ih =>
      simp only [List.foldl_cons]
      by_cases hat : a < t
      · simp only [if_pos hat]
        rcases List.mem_cons.mp (ih t) with h | h <;> simp [h]
      · simp only [if_neg hat]
        rcases List.mem_cons.mp (ih a) with h | h <;> simp [h]

theorem foldl_last_ge_init (l : List Nat) (a : Nat) :
    a ≤ l.foldl (fun last t => if last < t then t else last) a := by
  induction l generalizing a with
  | nil => simp
  | cons t rest ih =>
      simp only [List.foldl_cons]
      refine Nat.le_trans ?_ (ih (if a < t then t else a))
      by_cases hat : a < t
      · simp only [if_pos hat]; omega
      · simp only [if_neg hat]; omega

theorem foldl_last_ge (l : List Nat) (a : Nat) :
    ∀ t ∈ l, t ≤ l.foldl (fun last t => if last < t then t else last) a := by
  induction l generalizing a with
  | nil => simp
  | cons t rest ih =>
      intro u hu
      rcases List.mem_cons.mp hu with h | h
      · subst h
        simp only [List.foldl_cons]
        refine Nat.le_trans ?_ (foldl_last_ge_init rest _)
        by_cases hat : a < u
        · simp only [if_pos hat]; omega
        · simp only [if_neg hat]; omega
      · simpa using ih (if a < t then t else a) u h

/-- Claim C8, counterexample: with two workers tied at finish time 5, the reported
idle-time list is empty — both tied workers are excluded, not exactly one, and
no tied worker is reported with zero idle time. -/
theorem logWorkersStat_tie_cex :
    logWorkersStat [5, 5] = some [] ∧
    ¬ ∃ i d, logWorkersStat [5, 5] = some [(i, d)] := by
  constructor
  · rfl
  · rintro ⟨i, d, hid⟩
    rw [show logWorkersStat [5, 5] = some [] from rfl] at hid
    simp at hid

/-- Claim C8 as amended: idle time is computed relative to the latest finish time
(the fold really computes the maximum of the slice), and every worker whose
finish time equals that maximum is excluded from the report; only workers
finishing strictly earlier are reported, with idle `last - t`. -/
theorem logWorkersStat_tie_spec (times : List Nat) (h : times ≠ []) :
    ∃ last report, logWorkersStat times = some report ∧
      last ∈ times ∧ (∀ t ∈ times, t ≤ last) ∧
      report = times.enum.filterMap (fun p =>
        if p.2 = last then none else some (p.1 + 1, last - p.2)) := by
  cases times with
  | nil => exact absurd rfl h
  | cons t0 rest =>
      refine ⟨(t0 :: rest).foldl (fun last t => if last < t then t else last) t0,
        _, rfl, ?_, ?_, rfl⟩
      · rcases List.mem_cons.mp (foldl_last_mem (t0 :: rest) t0) with h0 | h0
        · simp [h0]
        · exact h0
      · exact foldl_last_ge (t0 :: rest) t0

/-- Witness for the amended C8 at the finish times `[3, 7, 7]`. -/
theorem logWorkersStat_tie_spec_witness :
    ∃ last report, logWorkersStat [3, 7, 7] = some report ∧
      last ∈ [3, 7, 7] ∧ (∀ t ∈ [3, 7, 7], t ≤ last) ∧
      report = [3, 7, 7].enum.filterMap (fun p =>
        if p.2 = last then none else some (p.1 + 1, last - p.2)) :=
  logWorkersStat_tie_spec [3, 7, 7] (by decide)

/-- Claim C9: with the finish-time slice `make([]time.Time, Concurrency)`, the
unconditional read of `workersFinishTimes[0]` in `logWorkersStat` is in
bounds (no panic, modelled by `isSome`) exactly when the configured worker
concurrency is at least 1. -/
theorem logWorkersStat_inbounds (concurrency : Nat) (times : List Nat)
    (h : workersFinishTimesLen concurrency times) :
    (logWorkersStat times).isSome ↔ 1 ≤ concurrency := by
  simp only [workersFinishTimesLen] at h
  cases times with
  | nil =>
      have hc : concurrency = 0 := by simpa using h.symm
      subst hc
      simp [logWorkersStat]
  | cons t0 rest =>
      have hc : 1 ≤ concurrency := by
        simp only [List.length_cons] at h
        omega
      simp [logWorkersStat, hc]

/-- Witness for C9 at concurrency 2 with finish times `[4, 9]`. -/
theorem logWorkersStat_inbounds_witness :
    (logWorkersStat [4, 9]).isSome ↔ 1 ≤ 2 :=
  logWorkersStat_inbounds 2 [4, 9] rfl

/-- Claim C10: `getSortedLintersConfigs` sorts a fresh copy: replayed against the
slice heap, the caller's backing array is bit-for-bit unchanged, while the
returned slice holds the speed-sorted contents. -/
theorem getSortedLintersConfigsH_frame (h : SliceHeap) (linters : Nat)
    (hlt : linters < h.length) :
    heapRead (getSortedLintersConfigsH h linters).1 linters =
      heapRead h linters ∧
    heapRead (getSortedLintersConfigsH h linters).1
        (getSortedLintersConfigsH h linters).2 =
      getSortedLintersConfigs (heapRead h linters) := by
  have hv : heapRead (h ++ [heapRead h linters]) h.length =
      heapRead h linters := by
    simp [heapRead, List.getD, List.get?_eq_getElem?,
      List.getElem?_append_right (Nat.le_refl _)]
  constructor
  · simp only [getSortedLintersConfigsH, heapAlloc, sortSliceInPlace, heapWrite]
    rw [hv]
    simp only [heapRead, List.getD, List.get?_eq_getElem?]
    rw [List.getElem?_set_ne (Nat.ne_of_gt hlt)]
    simp [List.getElem?_append, hlt]
  · simp only [getSortedLintersConfigsH, heapAlloc, sortSliceInPlace, heapWrite]
    rw [hv]
    simp only [heapRead, List.getD, getSortedLintersConfigs,
      List.get?_eq_getElem?]
    rw [List.getElem?_set_eq_of_lt _ (by simp)]
    simp

/-- Witness for C10 on a two-element heap entry that sorting reorders. -/
theorem getSortedLintersConfigsH_frame_witness :
    heapRead (getSortedLintersConfigsH [[{ name := "errcheck", speed := 3 },
        lcGovet]] 0).1 0 =
      heapRead [[{ name := "errcheck", speed := 3 }, lcGovet]] 0 ∧
    heapRead (getSortedLintersConfigsH [[{ name := "errcheck", speed := 3 },
        lcGovet]] 0).1
        (getSortedLintersConfigsH [[{ name := "errcheck", speed := 3 },
          lcGovet]] 0).2 =
      getSortedLintersConfigs
        (heapRead [[{ name := "errcheck", speed := 3 }, lcGovet]] 0) :=
  getSortedLintersConfigsH_frame [[{ name := "errcheck", speed := 3 },
    lcGovet]] 0 (by decide)

end Runner
